import Mathlib

/-!
Verification development for the LiveWeb AI chatbot repository
(`backend/main.py`, `frontend/app.py`).

The backend's streaming chat handler `generate_chat_responses` consumes the
lazy event sequence produced by the LangGraph runtime (`graph.astream_events`)
and multiplexes it into a single ordered list of SSE frames.  We embed that
handler shallowly: the external event sequence becomes an explicit list of
`Event`s, optionally terminated by an exception (the `Option String` argument,
carrying the exception message raised while iterating), and the handler
becomes a pure function from that sequence to the list of emitted `Frame`s.

The graph components (`tools_router`, `tool_node`, the `model → tool_node →
model` loop built by `graph_builder`) are embedded as pure functions over a
message-list state, with the two external capabilities (the LLM and the Tavily
search tool) passed in as function parameters.

The frontend's `save_chat_sessions` (session-pruning before persistence) is
embedded over association lists with rational keys standing for the
`float(str(time.time()))` timestamp keys of the Python dict.
-/

namespace LiveWeb

/-- The registered search tool's name (`TavilySearchResults` registers under
this name; both `tool_node` and the event multiplexer compare against it). -/
def tavilyName : String := "tavily_search_results_json"

/-- A chunk delivered by an `on_chat_model_stream` event: either a genuine
`AIMessageChunk` with textual content, or a value of some other Python type
(whose type name is what `serialise_ai_message_chunk`'s `TypeError` reports). -/
inductive Chunk where
  | aiMessageChunk (content : String)
  | other (typeName : String)
deriving DecidableEq, Repr

/-- The arguments payload of a tool call.  `generate_chat_responses` reads
`call["args"].get("query", "")`, so we record the optional `query` entry. -/
structure ToolArgs where
  query : Option String
deriving DecidableEq, Repr

/-- A tool call as produced by the model: `{name, args, id}`. -/
structure ToolCallRec where
  name : String
  args : ToolArgs
  id : String
deriving DecidableEq, Repr

/-- One raw record of the search gateway's output list.  The backend reads
`item["url"]` guarded by `isinstance(item, dict) and "url" in item`; a record
is either a dict (with optional `url`, `title`, `snippet` fields) or a
non-dict value. -/
inductive RawItem where
  | dict (url : Option String) (title : Option String) (snippet : Option String)
  | nonDict
deriving DecidableEq, Repr

/-- The `event["data"]["output"]` of an `on_tool_end` event: the handler only
acts when `isinstance(output, list)` holds. -/
inductive ToolOutput where
  | list (items : List RawItem)
  | other
deriving DecidableEq, Repr

/-- One event of the LangGraph `astream_events` sequence, restricted to the
fields `generate_chat_responses` inspects.  Event types other than the three
handled ones are collapsed into `otherEvent`. -/
inductive Event where
  | onChatModelStream (chunk : Chunk)
  | onChatModelEnd (tool_calls : List ToolCallRec)
  | onToolEnd (name : String) (output : ToolOutput)
  | otherEvent (event_type : String)
deriving DecidableEq, Repr

/-- One SSE frame written by the handler (the JSON payload of one
`data: ...` line). -/
inductive Frame where
  | checkpoint (checkpoint_id : String)
  | content (content : String)
  | search_start (query : String)
  | search_results (urls : List String)
  | error (message : String)
  | endFrame
deriving DecidableEq, Repr

/-- `serialise_ai_message_chunk`: returns the chunk's content for an
`AIMessageChunk`, raises `TypeError(f"Unsupported type: {type(chunk).__name__}")`
otherwise. -/
def serialise_ai_message_chunk : Chunk → Except String String
  | .aiMessageChunk c => .ok c
  | .other t => .error ("Unsupported type: " ++ t)

/-- The URL extraction of the `on_tool_end` branch:
`[item["url"] for item in output if isinstance(item, dict) and "url" in item]`. -/
def extract_urls (items : List RawItem) : List String :=
  items.filterMap fun
    | .dict (some u) _ _ => some u
    | _ => none

/-- The `search_start` frames emitted at an `on_chat_model_end` event: one per
tool call named `tavily_search_results_json`, in request order, carrying
`call["args"].get("query", "")`. -/
def searchStartFrames (calls : List ToolCallRec) : List Frame :=
  calls.filterMap fun c =>
    if c.name = tavilyName then some (.search_start (c.args.query.getD "")) else none

/-- The `async for event in events:` loop body of `generate_chat_responses`,
together with the surrounding `try`/`except`.  The second argument models the
iteration outcome: `none` when the event source is exhausted normally (the
loop falls through to `yield end`), `some msg` when iterating the source
raises an exception with message `msg` after the listed events (the outermost
`except` then yields a single `error` frame).  A `TypeError` from
`serialise_ai_message_chunk` is caught by the same `except`, discarding the
rest of the stream. -/
def processEvents : List Event → Option String → List Frame
  | [], none => [.endFrame]
  | [], some msg => [.error msg]
  | .onChatModelStream chunk :: rest, exc =>
    match serialise_ai_message_chunk chunk with
    | .ok c => .content c :: processEvents rest exc
    | .error m => [.error m]
  | .onChatModelEnd calls :: rest, exc =>
    searchStartFrames calls ++ processEvents rest exc
  | .onToolEnd name output :: rest, exc =>
    if name = tavilyName then
      match output with
      | .list items => .search_results (extract_urls items) :: processEvents rest exc
      | .other => processEvents rest exc
    else processEvents rest exc
  | .otherEvent _ :: rest, exc => processEvents rest exc

/-- `generate_chat_responses(message, checkpoint_id)`: when no checkpoint id is
supplied, a fresh id (`str(uuid4())`, the `new_checkpoint_id` parameter) is
generated and a `checkpoint` frame is yielded before the event loop; otherwise
the supplied id is used as the thread id and no `checkpoint` frame is yielded.
The `message` only seeds the graph input and so only influences the external
`events`; it does not appear in any frame directly. -/
def generate_chat_responses (message : String) (checkpoint_id : Option String)
    (new_checkpoint_id : String) (events : List Event) (exc : Option String) :
    List Frame :=
  match checkpoint_id with
  | none => .checkpoint new_checkpoint_id :: processEvents events exc
  | some _ => processEvents events exc

/-- Whether a frame is a `checkpoint` frame. -/
def isCheckpoint : Frame → Bool
  | .checkpoint _ => true
  | _ => false

/-- Number of `checkpoint` frames in a frame list. -/
def checkpointCount (fs : List Frame) : Nat :=
  fs.countP isCheckpoint

theorem checkpointCount_nil : checkpointCount [] = 0 := rfl

theorem checkpointCount_cons (f : Frame) (fs : List Frame) :
    checkpointCount (f :: fs) =
      checkpointCount fs + (if isCheckpoint f then 1 else 0) := by
  simp [checkpointCount, List.countP_cons]

theorem checkpointCount_append (fs gs : List Frame) :
    checkpointCount (fs ++ gs) = checkpointCount fs + checkpointCount gs := by
  simp [checkpointCount, List.countP_append]

/-- `searchStartFrames` emits no checkpoint frames. -/
theorem checkpointCount_searchStartFrames (calls : List ToolCallRec) :
    checkpointCount (searchStartFrames calls) = 0 := by
  induction calls with
  | nil => rfl
  | cons c rest ih =>
    simp only [searchStartFrames, List.filterMap_cons] at *
    by_cases h : c.name = tavilyName
    · simp [h, checkpointCount_cons, isCheckpoint, ih]
    · simp [h, ih]

/-- The event-loop body never emits a `checkpoint` frame. -/
theorem checkpointCount_processEvents (evs : List Event) (exc : Option String) :
    checkpointCount (processEvents evs exc) = 0 := by
  induction evs generalizing exc with
  | nil =>
    cases exc <;>
      simp [processEvents, checkpointCount_cons, checkpointCount_nil, isCheckpoint]
  | cons e rest ih =>
    cases e with
    | onChatModelStream chunk =>
      cases chunk with
      | aiMessageChunk c =>
        simp [processEvents, serialise_ai_message_chunk, checkpointCount_cons, ih,
          isCheckpoint]
      | other t =>
        simp [processEvents, serialise_ai_message_chunk, checkpointCount_cons,
          checkpointCount_nil, isCheckpoint]
    | onChatModelEnd calls =>
      simp [processEvents, checkpointCount_append, checkpointCount_searchStartFrames, ih]
    | onToolEnd name output =>
      by_cases h : name = tavilyName
      · cases output with
        | list items =>
          simp [processEvents, h, checkpointCount_cons, ih, isCheckpoint]
        | other => simp [processEvents, h, ih]
      · simp [processEvents, h, ih]
    | otherEvent t => simp [processEvents, ih]

/-- Claim C1: the first frame of a stream is a `checkpoint` frame carrying the
newly generated conversation id exactly when the caller supplied no
checkpoint id; when an id is supplied no `checkpoint` frame is emitted at all;
and a `checkpoint` frame never occurs after the first position (so at most
once, and before any other frame). -/
theorem checkpoint_first_iff_new_conversation (message : String)
    (checkpoint_id : Option String) (new_checkpoint_id : String)
    (events : List Event) (exc : Option String) :
    ((generate_chat_responses message checkpoint_id new_checkpoint_id events exc).head? =
        some (.checkpoint new_checkpoint_id) ↔ checkpoint_id = none)
    ∧ checkpointCount
        (generate_chat_responses message checkpoint_id new_checkpoint_id events exc).tail = 0
    ∧ (∀ cid, checkpoint_id = some cid →
        checkpointCount
          (generate_chat_responses message checkpoint_id new_checkpoint_id events exc) = 0) := by
  cases checkpoint_id with
  | none =>
    refine ⟨by simp [generate_chat_responses], ?_, by simp⟩
    simp [generate_chat_responses, checkpointCount_processEvents]
  | some cid =>
    refine ⟨?_, ?_, ?_⟩
    · simp only [generate_chat_responses]
      constructor
      · intro h
        exfalso
        have h0 : checkpointCount (processEvents events exc) = 0 :=
          checkpointCount_processEvents events exc
        cases hp : processEvents events exc with
        | nil => rw [hp] at h; simp at h
        | cons f fs =>
          rw [hp] at h h0
          simp at h
          rw [checkpointCount_cons, h] at h0
          simp [isCheckpoint] at h0
      · intro h; cases h
    · have h0 : checkpointCount (processEvents events exc) = 0 :=
        checkpointCount_processEvents events exc
      simp only [generate_chat_responses]
      cases hp : processEvents events exc with
      | nil => simp [checkpointCount_nil]
      | cons f fs =>
        rw [hp] at h0
        rw [checkpointCount_cons] at h0
        simp only [List.tail_cons]
        omega
    · intro c hc
      simp [generate_chat_responses, checkpointCount_processEvents]

/-- Concrete instantiation of `checkpoint_first_iff_new_conversation` at a
supplied checkpoint id and a small trace. -/
theorem checkpoint_first_iff_new_conversation_witness :
    checkpointCount
      (generate_chat_responses "hi" (some "abc") "fresh"
        [.onChatModelStream (.aiMessageChunk "Paris")] none) = 0 :=
  (checkpoint_first_iff_new_conversation "hi" (some "abc") "fresh"
    [.onChatModelStream (.aiMessageChunk "Paris")] none).2.2 "abc" rfl

/-- Whether a frame is terminal (`end` or `error`). -/
def isTerminal : Frame → Bool
  | .endFrame => true
  | .error _ => true
  | _ => false

/-- A trace is clean when every `on_chat_model_stream` event carries a genuine
`AIMessageChunk` (so `serialise_ai_message_chunk` never raises). -/
def cleanTrace (evs : List Event) : Bool :=
  evs.all fun
    | .onChatModelStream (.other _) => false
    | _ => true

theorem isTerminal_searchStartFrames (calls : List ToolCallRec) :
    ∀ f ∈ searchStartFrames calls, isTerminal f = false := by
  intro f hf
  simp only [searchStartFrames, List.mem_filterMap] at hf
  obtain ⟨c, _, hc⟩ := hf
  by_cases h : c.name = tavilyName
  · simp [h] at hc
    simp [← hc, isTerminal]
  · simp [h] at hc

/-- Structure of the event-loop output: all frames but the last are
non-terminal, the last is terminal, and it is `end` exactly when the source
was exhausted without an exception and every streamed chunk was serialisable. -/
theorem processEvents_terminal_structure (evs : List Event) (exc : Option String) :
    ∃ fs t, processEvents evs exc = fs ++ [t]
      ∧ (∀ f ∈ fs, isTerminal f = false)
      ∧ isTerminal t = true
      ∧ (t = .endFrame ↔ (exc = none ∧ cleanTrace evs = true)) := by
  induction evs generalizing exc with
  | nil =>
    cases exc with
    | none => exact ⟨[], .endFrame, rfl, by simp, rfl, by simp [cleanTrace]⟩
    | some m =>
      refine ⟨[], .error m, rfl, by simp, rfl, ?_⟩
      simp
  | cons e rest ih =>
    cases e with
    | onChatModelStream chunk =>
      cases chunk with
      | aiMessageChunk c =>
        obtain ⟨fs, t, heq, hfs, ht, hiff⟩ := ih exc
        refine ⟨.content c :: fs, t, ?_, ?_, ht, ?_⟩
        · simp [processEvents, serialise_ai_message_chunk, heq]
        · intro f hf
          rcases List.mem_cons.mp hf with rfl | hf
          · rfl
          · exact hfs f hf
        · rw [hiff]
          simp [cleanTrace]
      | other ty =>
        refine ⟨[], .error ("Unsupported type: " ++ ty), ?_, by simp, rfl, ?_⟩
        · simp [processEvents, serialise_ai_message_chunk]
        · simp [cleanTrace]
    | onChatModelEnd calls =>
      obtain ⟨fs, t, heq, hfs, ht, hiff⟩ := ih exc
      refine ⟨searchStartFrames calls ++ fs, t, ?_, ?_, ht, ?_⟩
      · simp [processEvents, heq]
      · intro f hf
        rcases List.mem_append.mp hf with hf | hf
        · exact isTerminal_searchStartFrames calls f hf
        · exact hfs f hf
      · rw [hiff]
        simp [cleanTrace]
    | onToolEnd name output =>
      by_cases h : name = tavilyName
      · cases output with
        | list items =>
          obtain ⟨fs, t, heq, hfs, ht, hiff⟩ := ih exc
          refine ⟨.search_results (extract_urls items) :: fs, t, ?_, ?_, ht, ?_⟩
          · simp [processEvents, h, heq]
          · intro f hf
            rcases List.mem_cons.mp hf with rfl | hf
            · rfl
            · exact hfs f hf
          · rw [hiff]
            simp [cleanTrace]
        | other =>
          obtain ⟨fs, t, heq, hfs, ht, hiff⟩ := ih exc
          refine ⟨fs, t, ?_, hfs, ht, ?_⟩
          · simp [processEvents, h, heq]
          · rw [hiff]
            simp [cleanTrace]
      · obtain ⟨fs, t, heq, hfs, ht, hiff⟩ := ih exc
        refine ⟨fs, t, ?_, hfs, ht, ?_⟩
        · simp [processEvents, h, heq]
        · rw [hiff]
          simp [cleanTrace]
    | otherEvent ty =>
      obtain ⟨fs, t, heq, hfs, ht, hiff⟩ := ih exc
      refine ⟨fs, t, ?_, hfs, ht, ?_⟩
      · simp [processEvents, heq]
      · rw [hiff]
        simp [cleanTrace]

/-- Claim C2: every stream produced by the chat handler ends with exactly one
terminal frame — `end` exactly when the turn ran to completion without an
exception, an `error` frame otherwise — all earlier frames being
non-terminal, so never both terminals, never none, never a duplicate, and
never an `end` after an `error`. -/
theorem stream_exactly_one_terminal (message : String) (checkpoint_id : Option String)
    (new_checkpoint_id : String) (events : List Event) (exc : Option String) :
    ∃ fs t,
      generate_chat_responses message checkpoint_id new_checkpoint_id events exc = fs ++ [t]
      ∧ (∀ f ∈ fs, isTerminal f = false)
      ∧ isTerminal t = true
      ∧ (t = .endFrame ↔ (exc = none ∧ cleanTrace events = true))
      ∧ (t = .endFrame ∨ ∃ m, t = .error m) := by
  obtain ⟨fs, t, heq, hfs, ht, hiff⟩ := processEvents_terminal_structure events exc
  have hcases : t = Frame.endFrame ∨ ∃ m, t = Frame.error m := by
    cases t <;> simp_all [isTerminal]
  cases checkpoint_id with
  | none =>
    refine ⟨.checkpoint new_checkpoint_id :: fs, t, ?_, ?_, ht, hiff, hcases⟩
    · simp [generate_chat_responses, heq]
    · intro f hf
      rcases List.mem_cons.mp hf with rfl | hf
      · rfl
      · exact hfs f hf
  | some cid =>
    exact ⟨fs, t, by simp [generate_chat_responses, heq], hfs, ht, hiff, hcases⟩

/-- Concrete instantiation of `stream_exactly_one_terminal` on a small clean
trace. -/
theorem stream_exactly_one_terminal_witness :
    ∃ fs t,
      generate_chat_responses "hi" none "fresh"
          [.onChatModelStream (.aiMessageChunk "Paris"), .onChatModelEnd []] none = fs ++ [t]
      ∧ (∀ f ∈ fs, isTerminal f = false)
      ∧ isTerminal t = true
      ∧ (t = .endFrame ↔ (none = (none : Option String)
          ∧ cleanTrace [.onChatModelStream (.aiMessageChunk "Paris"), .onChatModelEnd []] = true))
      ∧ (t = .endFrame ∨ ∃ m, t = .error m) :=
  stream_exactly_one_terminal "hi" none "fresh"
    [.onChatModelStream (.aiMessageChunk "Paris"), .onChatModelEnd []] none

/-- The `content` fields of the `content` frames of a stream, in emission
order. -/
def contentFragments (fs : List Frame) : List String :=
  fs.filterMap fun
    | .content c => some c
    | _ => none

/-- Concatenation of all `content` fragments of a stream, as the frontend's
`full_response += data["content"]` accumulates them. -/
def contentConcat (fs : List Frame) : String :=
  String.join (contentFragments fs)

/-- The chunk contents streamed by the model across the trace, in order; by
the streaming-model contract their concatenation is the assistant's complete
answer text for the turn. -/
def streamedChunks (evs : List Event) : List String :=
  evs.filterMap fun
    | .onChatModelStream (.aiMessageChunk c) => some c
    | _ => none

/-- The assistant's complete answer text for a trace. -/
def fullAnswer (evs : List Event) : String :=
  String.join (streamedChunks evs)

theorem contentFragments_searchStartFrames (calls : List ToolCallRec) :
    contentFragments (searchStartFrames calls) = [] := by
  rw [contentFragments, List.filterMap_eq_nil]
  intro f hf
  simp only [searchStartFrames, List.mem_filterMap] at hf
  obtain ⟨c, _, hc⟩ := hf
  by_cases h : c.name = tavilyName
  · simp [h] at hc
    simp [← hc]
  · simp [h] at hc

/-- On a clean trace the event loop forwards exactly the streamed chunks as
`content` frames, in order. -/
theorem contentFragments_processEvents (evs : List Event) (exc : Option String)
    (hclean : cleanTrace evs = true) :
    contentFragments (processEvents evs exc) = streamedChunks evs := by
  induction evs generalizing exc with
  | nil => cases exc <;> simp [processEvents, contentFragments, streamedChunks]
  | cons e rest ih =>
    have hrest : cleanTrace rest = true := by
      simp only [cleanTrace, List.all_cons, Bool.and_eq_true] at hclean
      exact hclean.2
    cases e with
    | onChatModelStream chunk =>
      cases chunk with
      | aiMessageChunk c =>
        simp only [processEvents, serialise_ai_message_chunk]
        simp only [contentFragments, List.filterMap_cons] at *
        rw [ih exc hrest]
        simp [streamedChunks]
      | other ty => simp [cleanTrace] at hclean
    | onChatModelEnd calls =>
      simp only [processEvents, contentFragments, List.filterMap_append]
      have h1 : contentFragments (searchStartFrames calls) = [] :=
        contentFragments_searchStartFrames calls
      rw [contentFragments] at h1
      rw [h1, List.nil_append]
      have := ih exc hrest
      rw [contentFragments] at this
      rw [this]
      simp [streamedChunks]
    | onToolEnd name output =>
      by_cases h : name = tavilyName
      · cases output with
        | list items =>
          simp only [processEvents, h, if_pos]
          simp only [contentFragments, List.filterMap_cons]
          have := ih exc hrest
          rw [contentFragments] at this
          rw [this]
          simp [streamedChunks]
        | other =>
          simp only [processEvents, h, if_pos]
          rw [ih exc hrest]
          simp [streamedChunks]
      · simp only [processEvents, if_neg h]
        rw [ih exc hrest]
        simp [streamedChunks]
    | otherEvent ty =>
      simp only [processEvents]
      rw [ih exc hrest]
      simp [streamedChunks]

/-- Claim C3: for a successful stream (no exception, all chunks
serialisable), the `content` frames carry exactly the streamed fragments in
order — no gap, no duplication, no reordering — so their concatenation is the
complete assistant answer. -/
theorem content_concat_reconstructs_answer (message : String)
    (checkpoint_id : Option String) (new_checkpoint_id : String)
    (events : List Event) (exc : Option String)
    (hclean : cleanTrace events = true) (hexc : exc = none) :
    contentFragments
        (generate_chat_responses message checkpoint_id new_checkpoint_id events exc) =
      streamedChunks events
    ∧ contentConcat
        (generate_chat_responses message checkpoint_id new_checkpoint_id events exc) =
      fullAnswer events := by
  have hmain :
      contentFragments
          (generate_chat_responses message checkpoint_id new_checkpoint_id events exc) =
        streamedChunks events := by
    cases checkpoint_id with
    | none =>
      simp only [generate_chat_responses, contentFragments, List.filterMap_cons]
      exact contentFragments_processEvents events exc hclean
    | some cid =>
      simp only [generate_chat_responses]
      exact contentFragments_processEvents events exc hclean
  exact ⟨hmain, by rw [contentConcat, hmain, fullAnswer]⟩

/-- Concrete instantiation of `content_concat_reconstructs_answer`: two
fragments concatenate to the full answer. -/
theorem content_concat_reconstructs_answer_witness :
    contentFragments
        (generate_chat_responses "q" none "fresh"
          [.onChatModelStream (.aiMessageChunk "Par"),
           .onChatModelStream (.aiMessageChunk "is")] none) =
      streamedChunks
        [.onChatModelStream (.aiMessageChunk "Par"),
         .onChatModelStream (.aiMessageChunk "is")]
    ∧ contentConcat
        (generate_chat_responses "q" none "fresh"
          [.onChatModelStream (.aiMessageChunk "Par"),
           .onChatModelStream (.aiMessageChunk "is")] none) =
      fullAnswer
        [.onChatModelStream (.aiMessageChunk "Par"),
         .onChatModelStream (.aiMessageChunk "is")] :=
  content_concat_reconstructs_answer "q" none "fresh"
    [.onChatModelStream (.aiMessageChunk "Par"),
     .onChatModelStream (.aiMessageChunk "is")] none (by decide) rfl

/-- Whether a frame is a `search_start` frame. -/
def isSearchStart : Frame → Bool
  | .search_start _ => true
  | _ => false

/-- Whether a frame is a `search_results` frame. -/
def isSearchResults : Frame → Bool
  | .search_results _ => true
  | _ => false

/-- Number of `search_start` frames. -/
def startCount (fs : List Frame) : Nat := fs.countP isSearchStart

/-- Number of `search_results` frames. -/
def resultCount (fs : List Frame) : Nat := fs.countP isSearchResults

/-- The LangGraph runtime contract for a trace, tracked with a counter `n` of
requested-but-unfinished search calls: each `on_chat_model_end` requests one
search per tool call named `tavily_search_results_json` (the graph's
`tool_node` then executes them sequentially in request order), each completed
execution yields one `on_tool_end` event whose output is the gateway's record
list, and a turn ends with no call left unfinished. -/
def wellFormed : List Event → Nat → Bool
  | [], n => n == 0
  | .onChatModelEnd calls :: rest, n =>
    wellFormed rest (n + (searchStartFrames calls).length)
  | .onToolEnd name output :: rest, n =>
    if name = tavilyName then
      match output with
      | .list _ => decide (0 < n) && wellFormed rest (n - 1)
      | .other => false
    else wellFormed rest n
  | _ :: rest, n => wellFormed rest n

theorem isSearchStart_of_mem_searchStartFrames (calls : List ToolCallRec) :
    ∀ f ∈ searchStartFrames calls, isSearchStart f = true := by
  intro f hf
  simp only [searchStartFrames, List.mem_filterMap] at hf
  obtain ⟨c, _, hc⟩ := hf
  by_cases h : c.name = tavilyName
  · simp [h] at hc
    simp [← hc, isSearchStart]
  · simp [h] at hc

theorem resultCount_take_searchStartFrames (calls : List ToolCallRec) (k : Nat) :
    resultCount ((searchStartFrames calls).take k) = 0 := by
  rw [resultCount, List.countP_eq_zero]
  intro f hf
  have hf' : f ∈ searchStartFrames calls := List.mem_of_mem_take hf
  have := isSearchStart_of_mem_searchStartFrames calls f hf'
  cases f <;> simp_all [isSearchStart, isSearchResults]

theorem startCount_searchStartFrames (calls : List ToolCallRec) :
    startCount (searchStartFrames calls) = (searchStartFrames calls).length := by
  rw [startCount, List.countP_eq_length]
  exact isSearchStart_of_mem_searchStartFrames calls

/-- On a clean trace satisfying the runtime contract with `n` pending calls,
the loop emits exactly `n` more `search_results` frames than `search_start`
frames. -/
theorem resultCount_processEvents (evs : List Event) (exc : Option String)
    (n : Nat) (hwf : wellFormed evs n = true) (hclean : cleanTrace evs = true) :
    resultCount (processEvents evs exc) = n + startCount (processEvents evs exc) := by
  induction evs generalizing exc n with
  | nil =>
    simp only [wellFormed, beq_iff_eq] at hwf
    subst hwf
    cases exc <;> simp [processEvents, resultCount, startCount, isSearchStart,
      isSearchResults]
  | cons e rest ih =>
    have hrest : cleanTrace rest = true := by
      simp only [cleanTrace, List.all_cons, Bool.and_eq_true] at hclean
      exact hclean.2
    cases e with
    | onChatModelStream chunk =>
      cases chunk with
      | aiMessageChunk c =>
        have hwf' : wellFormed rest n = true := hwf
        simp only [processEvents, serialise_ai_message_chunk]
        simp only [resultCount, startCount, List.countP_cons] at *
        have := ih exc n hwf' hrest
        simp [isSearchStart, isSearchResults] at *
        omega
      | other ty => simp [cleanTrace] at hclean
    | onChatModelEnd calls =>
      have hwf' : wellFormed rest (n + (searchStartFrames calls).length) = true := hwf
      simp only [processEvents]
      have hS0 : resultCount (searchStartFrames calls) = 0 := by
        have := resultCount_take_searchStartFrames calls (searchStartFrames calls).length
        rwa [List.take_length] at this
      have hSall := startCount_searchStartFrames calls
      have := ih exc (n + (searchStartFrames calls).length) hwf' hrest
      simp only [resultCount, startCount, List.countP_append] at *
      omega
    | onToolEnd name output =>
      by_cases h : name = tavilyName
      · cases output with
        | list items =>
          simp only [wellFormed, h, if_pos, Bool.and_eq_true, decide_eq_true_eq] at hwf
          obtain ⟨hn, hwf'⟩ := hwf
          simp only [processEvents, h, if_pos]
          have := ih exc (n - 1) hwf' hrest
          simp only [resultCount, startCount, List.countP_cons] at *
          simp [isSearchStart, isSearchResults] at *
          omega
        | other => simp [wellFormed, h] at hwf
      · have hwf' : wellFormed rest n = true := by
          simpa [wellFormed, h] using hwf
        simp only [processEvents, if_neg h]
        exact ih exc n hwf' hrest
    | otherEvent ty =>
      have hwf' : wellFormed rest n = true := hwf
      simp only [processEvents]
      exact ih exc n hwf' hrest

/-- Prefix invariant: in any prefix of the loop's output, at most `n` more
`search_results` frames than `search_start` frames have appeared. -/
theorem resultCount_take_processEvents (evs : List Event) (exc : Option String)
    (n : Nat) (hwf : wellFormed evs n = true) (hclean : cleanTrace evs = true) :
    ∀ k, resultCount ((processEvents evs exc).take k) ≤
      n + startCount ((processEvents evs exc).take k) := by
  induction evs generalizing exc n with
  | nil =>
    intro k
    cases exc <;> cases k <;>
      simp [processEvents, resultCount, startCount, isSearchStart, isSearchResults,
        List.countP_cons]
  | cons e rest ih =>
    have hrest : cleanTrace rest = true := by
      simp only [cleanTrace, List.all_cons, Bool.and_eq_true] at hclean
      exact hclean.2
    cases e with
    | onChatModelStream chunk =>
      cases chunk with
      | aiMessageChunk c =>
        have hwf' : wellFormed rest n = true := hwf
        intro k
        simp only [processEvents, serialise_ai_message_chunk]
        cases k with
        | zero => simp [resultCount, startCount]
        | succ k =>
          have := ih exc n hwf' hrest k
          simp only [List.take_succ_cons, resultCount, startCount,
            List.countP_cons] at *
          simp [isSearchStart, isSearchResults] at *
          omega
      | other ty => simp [cleanTrace] at hclean
    | onChatModelEnd calls =>
      have hwf' : wellFormed rest (n + (searchStartFrames calls).length) = true := hwf
      intro k
      simp only [processEvents]
      rw [List.take_append_eq_append_take]
      have h1 := resultCount_take_searchStartFrames calls k
      have h2 : startCount ((searchStartFrames calls).take k) =
          ((searchStartFrames calls).take k).length := by
        rw [startCount, List.countP_eq_length]
        intro f hf
        exact isSearchStart_of_mem_searchStartFrames calls f (List.mem_of_mem_take hf)
      have h3 := ih exc (n + (searchStartFrames calls).length) hwf' hrest
        (k - (searchStartFrames calls).length)
      by_cases hk : (searchStartFrames calls).length ≤ k
      · have hlen : ((searchStartFrames calls).take k).length =
            (searchStartFrames calls).length := by
          rw [List.length_take]
          omega
        simp only [resultCount, startCount, List.countP_append] at *
        omega
      · have : k - (searchStartFrames calls).length = 0 := by omega
        rw [this] at *
        simp only [List.take_zero] at *
        simp only [resultCount, startCount, List.countP_append] at *
        simp only [List.countP_nil] at *
        omega
    | onToolEnd name output =>
      by_cases h : name = tavilyName
      · cases output with
        | list items =>
          simp only [wellFormed, h, if_pos, Bool.and_eq_true, decide_eq_true_eq] at hwf
          obtain ⟨hn, hwf'⟩ := hwf
          intro k
          simp only [processEvents, h, if_pos]
          cases k with
          | zero => simp [resultCount, startCount]
          | succ k =>
            have := ih exc (n - 1) hwf' hrest k
            simp only [List.take_succ_cons, resultCount, startCount,
              List.countP_cons] at *
            simp [isSearchStart, isSearchResults] at *
            omega
        | other => simp [wellFormed, h] at hwf
      · have hwf' : wellFormed rest n = true := by
          simpa [wellFormed, h] using hwf
        intro k
        simp only [processEvents, if_neg h]
        exact ih exc n hwf' hrest k
    | otherEvent ty =>
      have hwf' : wellFormed rest n = true := hwf
      intro k
      simp only [processEvents]
      exact ih exc n hwf' hrest k

/-- Claim C4: on a turn whose trace satisfies the runtime contract (every
requested search call completes, in request order) with all chunks
serialisable, the stream contains exactly as many `search_results` frames as
`search_start` frames, and in every prefix the `search_results` frames never
outnumber the `search_start` frames — so the i-th `search_start` frame is
matched by the i-th `search_results` frame, which appears strictly later in
the stream, pairs in request order. -/
theorem search_start_matched_by_results (message : String)
    (checkpoint_id : Option String) (new_checkpoint_id : String)
    (events : List Event) (exc : Option String)
    (hwf : wellFormed events 0 = true) (hclean : cleanTrace events = true) :
    resultCount (generate_chat_responses message checkpoint_id new_checkpoint_id events exc) =
      startCount (generate_chat_responses message checkpoint_id new_checkpoint_id events exc)
    ∧ ∀ k,
        resultCount
            ((generate_chat_responses message checkpoint_id new_checkpoint_id events exc).take k) ≤
          startCount
            ((generate_chat_responses message checkpoint_id new_checkpoint_id events exc).take k) := by
  have htot := resultCount_processEvents events exc 0 hwf hclean
  have hpre := resultCount_take_processEvents events exc 0 hwf hclean
  cases checkpoint_id with
  | none =>
    constructor
    · simp only [generate_chat_responses, resultCount, startCount, List.countP_cons]
      simp only [resultCount, startCount] at htot
      simp [isSearchStart, isSearchResults]
      omega
    · intro k
      cases k with
      | zero => simp [resultCount, startCount]
      | succ k =>
        have := hpre k
        simp only [generate_chat_responses, List.take_succ_cons, resultCount,
          startCount, List.countP_cons] at *
        simp [isSearchStart, isSearchResults] at *
        omega
  | some cid =>
    constructor
    · simpa [generate_chat_responses] using htot
    · intro k
      simpa [generate_chat_responses] using hpre k

/-- Concrete instantiation of `search_start_matched_by_results`: one search
call, started and completed. -/
theorem search_start_matched_by_results_witness :
    resultCount (generate_chat_responses "w" none "fresh"
        [.onChatModelEnd [⟨tavilyName, ⟨some "Tokyo weather"⟩, "call1"⟩],
         .onToolEnd tavilyName (.list [.dict (some "https://a.example") none none]),
         .onChatModelStream (.aiMessageChunk "Sunny")] none) =
      startCount (generate_chat_responses "w" none "fresh"
        [.onChatModelEnd [⟨tavilyName, ⟨some "Tokyo weather"⟩, "call1"⟩],
         .onToolEnd tavilyName (.list [.dict (some "https://a.example") none none]),
         .onChatModelStream (.aiMessageChunk "Sunny")] none) :=
  (search_start_matched_by_results "w" none "fresh"
    [.onChatModelEnd [⟨tavilyName, ⟨some "Tokyo weather"⟩, "call1"⟩],
     .onToolEnd tavilyName (.list [.dict (some "https://a.example") none none]),
     .onChatModelStream (.aiMessageChunk "Sunny")] none (by decide) (by decide)).1

/-- Rewrites the non-URL fields (`title`, `snippet`) of a raw record while
leaving the `url` field untouched. -/
def setMeta (f g : Option String → Option String) : RawItem → RawItem
  | .dict u t s => .dict u (f t) (g s)
  | .nonDict => .nonDict

/-- `extract_urls` is insensitive to the `title` and `snippet` fields: only
the `url` field of each record crosses the boundary. -/
theorem extract_urls_setMeta (items : List RawItem)
    (f g : Option String → Option String) :
    extract_urls (items.map (setMeta f g)) = extract_urls items := by
  induction items with
  | nil => rfl
  | cons it rest ih =>
    cases it with
    | dict u t s =>
      cases u <;> simp [extract_urls, setMeta, List.filterMap_cons] at * <;> exact ih
    | nonDict => simpa [extract_urls, setMeta, List.filterMap_cons] using ih

/-- Every `search_results` frame of the event loop's output originates from an
`on_tool_end` event of the registered search tool whose output was a record
list, and carries exactly `extract_urls` of that list. -/
theorem search_results_provenance (evs : List Event) (exc : Option String) :
    ∀ urls, Frame.search_results urls ∈ processEvents evs exc →
      ∃ items, Event.onToolEnd tavilyName (.list items) ∈ evs
        ∧ urls = extract_urls items := by
  induction evs generalizing exc with
  | nil =>
    intro urls h
    cases exc <;> simp [processEvents] at h
  | cons e rest ih =>
    intro urls h
    cases e with
    | onChatModelStream chunk =>
      cases chunk with
      | aiMessageChunk c =>
        simp only [processEvents, serialise_ai_message_chunk, List.mem_cons] at h
        rcases h with h | h
        · cases h
        · obtain ⟨items, hm, hu⟩ := ih exc urls h
          exact ⟨items, List.mem_cons_of_mem _ hm, hu⟩
      | other ty =>
        simp only [processEvents, serialise_ai_message_chunk, List.mem_singleton] at h
        cases h
    | onChatModelEnd calls =>
      simp only [processEvents, List.mem_append] at h
      rcases h with h | h
      · have := isSearchStart_of_mem_searchStartFrames calls _ h
        simp [isSearchStart] at this
      · obtain ⟨items, hm, hu⟩ := ih exc urls h
        exact ⟨items, List.mem_cons_of_mem _ hm, hu⟩
    | onToolEnd name output =>
      by_cases hn : name = tavilyName
      · cases output with
        | list items =>
          simp only [processEvents, hn, if_pos, List.mem_cons] at h
          rcases h with h | h
          · injection h with h'
            exact ⟨items, by simp [hn], h'⟩
          · obtain ⟨items', hm, hu⟩ := ih exc urls h
            exact ⟨items', List.mem_cons_of_mem _ hm, hu⟩
        | other =>
          simp only [processEvents, hn, if_pos] at h
          obtain ⟨items', hm, hu⟩ := ih exc urls h
          exact ⟨items', List.mem_cons_of_mem _ hm, hu⟩
      · simp only [processEvents, if_neg hn] at h
        obtain ⟨items', hm, hu⟩ := ih exc urls h
        exact ⟨items', List.mem_cons_of_mem _ hm, hu⟩
    | otherEvent ty =>
      simp only [processEvents] at h
      obtain ⟨items', hm, hu⟩ := ih exc urls h
      exact ⟨items', List.mem_cons_of_mem _ hm, hu⟩

/-- Claim C5: every `search_results` frame of a stream carries exactly the
list of URL strings extracted, in gateway order, from the record list of a
completed search invocation in the trace, and that extraction ignores every
field other than `url` (titles and snippets are dropped). -/
theorem search_results_urls_only (message : String)
    (checkpoint_id : Option String) (new_checkpoint_id : String)
    (events : List Event) (exc : Option String) :
    (∀ urls,
        Frame.search_results urls ∈
          generate_chat_responses message checkpoint_id new_checkpoint_id events exc →
        ∃ items, Event.onToolEnd tavilyName (.list items) ∈ events
          ∧ urls = extract_urls items)
    ∧ ∀ (items : List RawItem) (f g : Option String → Option String),
        extract_urls (items.map (setMeta f g)) = extract_urls items := by
  refine ⟨?_, extract_urls_setMeta⟩
  intro urls h
  cases checkpoint_id with
  | none =>
    simp only [generate_chat_responses, List.mem_cons] at h
    rcases h with h | h
    · cases h
    · exact search_results_provenance events exc urls h
  | some cid =>
    exact search_results_provenance events exc urls h

/-- Concrete instantiation of `search_results_urls_only`: the emitted URL list
is the URL extraction of the gateway's record list. -/
theorem search_results_urls_only_witness :
    ∃ items,
      Event.onToolEnd tavilyName (.list items) ∈
        [Event.onToolEnd tavilyName
          (.list [.dict (some "https://a.example") (some "title A") (some "snip A"),
                  .nonDict,
                  .dict (some "https://b.example") none (some "snip B")])]
      ∧ ["https://a.example", "https://b.example"] = extract_urls items :=
  (search_results_urls_only "q" (some "cid") "fresh"
      [Event.onToolEnd tavilyName
        (.list [.dict (some "https://a.example") (some "title A") (some "snip A"),
                .nonDict,
                .dict (some "https://b.example") none (some "snip B")])] none).1
    ["https://a.example", "https://b.example"] (by decide)

/-- A message of a conversation history, after `add_messages` reduction:
`human` (the user's text), `ai` (the model's output with its recorded tool
calls), or `tool` (a `ToolMessage`; its `content` is the stringified search
output, modelled here as the raw record list). -/
inductive Msg where
  | human (content : String)
  | ai (content : String) (tool_calls : List ToolCallRec)
  | tool (content : List RawItem) (tool_call_id : String) (name : String)
deriving DecidableEq, Repr

/-- A `ToolMessage` as built by `tool_node`:
`ToolMessage(content=str(search_results), tool_call_id=tool_id, name=tool_name)`
(the `str(...)` serialisation is modelled by keeping the raw record list). -/
structure ToolMessage where
  content : List RawItem
  tool_call_id : String
  name : String
deriving DecidableEq, Repr

/-- The `for tool_call in tool_calls:` loop of `tool_node`, with the external
search capability passed as `invoke`.  Returns the `ToolMessage`s appended (in
loop order) together with the list of calls actually invoked. -/
def runToolCalls (invoke : ToolArgs → List RawItem) :
    List ToolCallRec → List ToolMessage × List ToolCallRec
  | [] => ([], [])
  | tc :: rest =>
    let r := runToolCalls invoke rest
    if tc.name = tavilyName then
      (⟨invoke tc.args, tc.id, tc.name⟩ :: r.1, tc :: r.2)
    else r

/-- `tool_node(state)`: reads `state["messages"][-1].tool_calls` and runs the
loop.  When the last message is not an assistant message carrying tool calls
the attribute access fails (modelled as `none`). -/
def tool_node (invoke : ToolArgs → List RawItem) (messages : List Msg) :
    Option (List ToolMessage × List ToolCallRec) :=
  match messages.getLast? with
  | some (.ai _ calls) => some (runToolCalls invoke calls)
  | _ => none

/-- `runToolCalls` processes exactly the calls named
`tavily_search_results_json`, in request order. -/
theorem runToolCalls_eq (invoke : ToolArgs → List RawItem)
    (calls : List ToolCallRec) :
    runToolCalls invoke calls =
      ((calls.filter fun tc => decide (tc.name = tavilyName)).map
          fun tc => ⟨invoke tc.args, tc.id, tc.name⟩,
        calls.filter fun tc => decide (tc.name = tavilyName)) := by
  induction calls with
  | nil => rfl
  | cons tc rest ih =>
    by_cases h : tc.name = tavilyName
    · simp [runToolCalls, h, List.filter_cons, ih]
    · simp [runToolCalls, h, List.filter_cons, ih]

/-- Claim C6: a tool call whose name is not the registered search tool is
silently skipped by `tool_node`: the node still succeeds (no error), the call
is never invoked, and every result message produced stems from a call named
`tavily_search_results_json` (so none is appended for the unknown call). -/
theorem tool_node_skips_unknown_tool (invoke : ToolArgs → List RawItem)
    (messages : List Msg) (content : String) (calls : List ToolCallRec)
    (tc : ToolCallRec)
    (hlast : messages.getLast? = some (.ai content calls))
    (htc : tc ∈ calls) (hname : tc.name ≠ tavilyName) :
    ∃ out, tool_node invoke messages = some out
      ∧ tc ∉ out.2
      ∧ ∀ m ∈ out.1, ∃ tc2 ∈ calls, tc2.name = tavilyName
          ∧ m = ⟨invoke tc2.args, tc2.id, tc2.name⟩ := by
  refine ⟨runToolCalls invoke calls, ?_, ?_, ?_⟩
  · simp [tool_node, hlast]
  · rw [runToolCalls_eq]
    intro hmem
    simp only [List.mem_filter, decide_eq_true_eq] at hmem
    exact hname hmem.2
  · intro m hm
    rw [runToolCalls_eq] at hm
    simp only [List.mem_map, List.mem_filter, decide_eq_true_eq] at hm
    obtain ⟨tc2, ⟨hmem, hn⟩, hEq⟩ := hm
    exact ⟨tc2, hmem, hn, hEq.symm⟩

/-- Concrete instantiation of `tool_node_skips_unknown_tool` on a history
whose assistant message requests one known and one unknown tool. -/
theorem tool_node_skips_unknown_tool_witness :
    ∃ out,
      tool_node (fun _ => [])
          [.human "q", .ai "" [⟨"other_tool", ⟨some "x"⟩, "id1"⟩,
                               ⟨tavilyName, ⟨some "y"⟩, "id2"⟩]] = some out
      ∧ (⟨"other_tool", ⟨some "x"⟩, "id1"⟩ : ToolCallRec) ∉ out.2
      ∧ ∀ m ∈ out.1, ∃ tc2 ∈ [(⟨"other_tool", ⟨some "x"⟩, "id1"⟩ : ToolCallRec),
                               ⟨tavilyName, ⟨some "y"⟩, "id2"⟩],
          tc2.name = tavilyName ∧ m = ⟨(fun _ => ([] : List RawItem)) tc2.args, tc2.id, tc2.name⟩ :=
  tool_node_skips_unknown_tool (fun _ => [])
    [.human "q", .ai "" [⟨"other_tool", ⟨some "x"⟩, "id1"⟩, ⟨tavilyName, ⟨some "y"⟩, "id2"⟩]]
    "" [⟨"other_tool", ⟨some "x"⟩, "id1"⟩, ⟨tavilyName, ⟨some "y"⟩, "id2"⟩]
    ⟨"other_tool", ⟨some "x"⟩, "id1"⟩ rfl (by decide) (by decide)

/-- Claim C7: every `ToolMessage` produced by `tool_node` references, via its
`tool_call_id`, an id issued by the assistant message it answers (the last
message of the conversation history), and the result messages appear in the
same relative order as the calls were issued (their id sequence is a sublist
of the issued id sequence). -/
theorem tool_results_reference_issued_calls (invoke : ToolArgs → List RawItem)
    (messages : List Msg) (content : String) (calls : List ToolCallRec)
    (hlast : messages.getLast? = some (.ai content calls)) :
    ∃ out, tool_node invoke messages = some out
      ∧ (out.1.map ToolMessage.tool_call_id).Sublist (calls.map ToolCallRec.id)
      ∧ ∀ m ∈ out.1, m.tool_call_id ∈ calls.map ToolCallRec.id := by
  refine ⟨runToolCalls invoke calls, by simp [tool_node, hlast], ?_, ?_⟩
  · rw [runToolCalls_eq]
    have h1 : ((calls.filter fun tc => decide (tc.name = tavilyName)).map
          (fun tc => (⟨invoke tc.args, tc.id, tc.name⟩ : ToolMessage))).map
          ToolMessage.tool_call_id =
        (calls.filter fun tc => decide (tc.name = tavilyName)).map ToolCallRec.id := by
      rw [List.map_map]
      rfl
    rw [h1]
    exact (List.filter_sublist calls).map ToolCallRec.id
  · intro m hm
    rw [runToolCalls_eq] at hm
    simp only [List.mem_map, List.mem_filter, decide_eq_true_eq] at hm
    obtain ⟨tc2, ⟨hmem, _⟩, hEq⟩ := hm
    rw [← hEq]
    exact List.mem_map_of_mem ToolCallRec.id hmem

/-- Concrete instantiation of `tool_results_reference_issued_calls` on a
two-call assistant message. -/
theorem tool_results_reference_issued_calls_witness :
    ∃ out,
      tool_node (fun _ => [])
          [.human "q", .ai "" [⟨tavilyName, ⟨some "a"⟩, "id1"⟩,
                               ⟨tavilyName, ⟨some "b"⟩, "id2"⟩]] = some out
      ∧ (out.1.map ToolMessage.tool_call_id).Sublist
          (([⟨tavilyName, ⟨some "a"⟩, "id1"⟩,
             ⟨tavilyName, ⟨some "b"⟩, "id2"⟩] : List ToolCallRec).map ToolCallRec.id)
      ∧ ∀ m ∈ out.1, m.tool_call_id ∈
          (([⟨tavilyName, ⟨some "a"⟩, "id1"⟩,
             ⟨tavilyName, ⟨some "b"⟩, "id2"⟩] : List ToolCallRec).map ToolCallRec.id) :=
  tool_results_reference_issued_calls (fun _ => [])
    [.human "q", .ai "" [⟨tavilyName, ⟨some "a"⟩, "id1"⟩, ⟨tavilyName, ⟨some "b"⟩, "id2"⟩]]
    "" [⟨tavilyName, ⟨some "a"⟩, "id1"⟩, ⟨tavilyName, ⟨some "b"⟩, "id2"⟩] rfl

/-- Whether a message has a non-empty `tool_calls` attribute:
`hasattr(last_message, "tool_calls") and len(last_message.tool_calls) > 0`
(only assistant messages carry the attribute). -/
def hasToolCalls : Msg → Bool
  | .ai _ calls => decide (0 < calls.length)
  | _ => false

/-- The runtime value of LangGraph's `END` sentinel. -/
def ENDNode : String := "__end__"

/-- `tools_router(state)`: inspects `state["messages"][-1]` and returns
`"tool_node"` when it carries tool calls, `END` otherwise (`none` models the
`IndexError` on an empty history, which cannot occur after the model node). -/
def tools_router (messages : List Msg) : Option String :=
  match messages.getLast? with
  | none => none
  | some m => some (if hasToolCalls m then "tool_node" else ENDNode)

/-- The node the turn engine is currently at: the graph built by
`graph_builder` has nodes `model` and `tool_node`, entry point `model`,
conditional edges from `model` chosen by `tools_router`, and a fixed edge
`tool_node → model`; `done` is the `END` state. -/
inductive NodeName where
  | model
  | tool_node
  | done
deriving DecidableEq, Repr

/-- The state of one in-flight turn: current node, accumulated message list
(`add_messages` appends), and the number of model invocations so far (used to
index the black-box model oracle). -/
structure TurnState where
  node : NodeName
  messages : List Msg
  invocations : Nat
deriving DecidableEq, Repr

/-- The messages `tool_node` appends to the state
(`return {"messages": tool_messages}` under `add_messages`). -/
def toolNodeAppend (invoke : ToolArgs → List RawItem) (messages : List Msg) :
    List Msg :=
  match tool_node invoke messages with
  | some out => out.1.map fun m => Msg.tool m.content m.tool_call_id m.name
  | none => []

/-- One superstep of the compiled graph.  `modelOut i` is the black-box LLM's
response to the i-th invocation of this turn; executing `model` appends it and
routes via `tools_router`, executing `tool_node` appends the tool messages and
follows the unconditional `tool_node → model` edge. -/
def turnStep (invoke : ToolArgs → List RawItem) (modelOut : Nat → Msg)
    (s : TurnState) : TurnState :=
  match s.node with
  | .model =>
    let out := modelOut s.invocations
    let msgs := s.messages ++ [out]
    { node := if tools_router msgs = some "tool_node" then .tool_node else .done,
      messages := msgs,
      invocations := s.invocations + 1 }
  | .tool_node =>
    { node := .model,
      messages := s.messages ++ toolNodeAppend invoke s.messages,
      invocations := s.invocations }
  | .done => s

/-- The turn after `n` supersteps from state `s0`. -/
def turnIter (invoke : ToolArgs → List RawItem) (modelOut : Nat → Msg)
    (s0 : TurnState) (n : Nat) : TurnState :=
  (turnStep invoke modelOut)^[n] s0

theorem turnStep_model_node (invoke : ToolArgs → List RawItem)
    (modelOut : Nat → Msg) (s : TurnState) (hs : s.node = .model) :
    (turnStep invoke modelOut s).node =
      (if hasToolCalls (modelOut s.invocations) then NodeName.tool_node else .done) := by
  have hrouter : tools_router (s.messages ++ [modelOut s.invocations]) =
      some (if hasToolCalls (modelOut s.invocations) then "tool_node" else ENDNode) := by
    rw [tools_router, List.getLast?_concat]
  rw [turnStep, hs]
  simp only [hrouter]
  by_cases h : hasToolCalls (modelOut s.invocations) <;> simp [h, ENDNode]

/-- While the model keeps requesting tools, after `2*i` supersteps the engine
is back at the model node, about to make its (i+1)-st invocation. -/
theorem turnIter_two_mul (invoke : ToolArgs → List RawItem) (modelOut : Nat → Msg)
    (s0 : TurnState) (h0 : s0.node = .model) (hinv : s0.invocations = 0) :
    ∀ i, (∀ j, j < i → hasToolCalls (modelOut j) = true) →
      (turnIter invoke modelOut s0 (2 * i)).node = .model
      ∧ (turnIter invoke modelOut s0 (2 * i)).invocations = i := by
  intro i
  induction i with
  | zero =>
    intro _
    simpa [turnIter] using ⟨h0, hinv⟩
  | succ i ih =>
    intro hcalls
    obtain ⟨hnode, hi⟩ := ih fun j hj => hcalls j (Nat.lt_succ_of_lt hj)
    have h2 : 2 * (i + 1) = 2 * i + 1 + 1 := by ring
    rw [h2]
    have hstep1 : (turnIter invoke modelOut s0 (2 * i + 1)).node = .tool_node
        ∧ (turnIter invoke modelOut s0 (2 * i + 1)).invocations = i + 1 := by
      rw [turnIter, Function.iterate_succ_apply']
      constructor
      · rw [show (turnStep invoke modelOut)^[2 * i] s0 =
            turnIter invoke modelOut s0 (2 * i) from rfl,
          turnStep_model_node invoke modelOut _ hnode, hi, hcalls i (Nat.lt_succ_self i)]
        rfl
      · rw [show (turnStep invoke modelOut)^[2 * i] s0 =
            turnIter invoke modelOut s0 (2 * i) from rfl]
        rw [turnStep, hnode, hi]
    rw [turnIter, Function.iterate_succ_apply']
    rw [show (turnStep invoke modelOut)^[2 * i + 1] s0 =
        turnIter invoke modelOut s0 (2 * i + 1) from rfl]
    rw [turnStep, hstep1.1]
    exact ⟨rfl, hstep1.2⟩

/-- Claim C8: the compiled loop enforces no iteration ceiling — the edge from
`tool_node` back to `model` is unconditional, a model step reaches the end
state exactly when the model response carries zero tool calls, and the turn
reaches the end state at all exactly when the model eventually produces such a
response. -/
theorem turn_engine_unbounded_loop (invoke : ToolArgs → List RawItem)
    (modelOut : Nat → Msg) (s0 : TurnState)
    (h0 : s0.node = .model) (hinv : s0.invocations = 0) :
    (∀ s : TurnState, s.node = .tool_node →
        (turnStep invoke modelOut s).node = .model)
    ∧ (∀ s : TurnState, s.node = .model →
        ((turnStep invoke modelOut s).node = .done ↔
          hasToolCalls (modelOut s.invocations) = false))
    ∧ ((∃ n, (turnIter invoke modelOut s0 n).node = .done) ↔
        ∃ i, hasToolCalls (modelOut i) = false) := by
  refine ⟨?_, ?_, ?_, ?_⟩
  · intro s hs
    rw [turnStep, hs]
  · intro s hs
    rw [turnStep_model_node invoke modelOut s hs]
    by_cases h : hasToolCalls (modelOut s.invocations) <;> simp [h]
  · -- forward: if some iterate is done, the model must somewhere have
    -- produced a call-free response (contrapositive)
    intro ⟨n, hn⟩
    by_contra hall
    push_neg at hall
    have hcalls : ∀ j, hasToolCalls (modelOut j) = true := by
      intro j
      have := hall j
      revert this
      cases hasToolCalls (modelOut j) <;> simp
    have hnotdone : ∀ m, (turnIter invoke modelOut s0 m).node ≠ .done := by
      intro m
      induction m with
      | zero =>
        simp only [turnIter, Function.iterate_zero_apply, h0]
        intro h; cases h
      | succ m ihm =>
        rw [turnIter, Function.iterate_succ_apply']
        rw [show (turnStep invoke modelOut)^[m] s0 =
            turnIter invoke modelOut s0 m from rfl]
        rcases hcase : (turnIter invoke modelOut s0 m).node with hm | hm | hm
        · rw [turnStep_model_node invoke modelOut _ hcase, hcalls]
          intro h; cases h
        · rw [turnStep, hcase]
          intro h; cases h
        · exact absurd hcase (ihm)
    exact hnotdone n hn
  · -- backward: at the least call-free invocation the router returns END
    intro ⟨i, hi⟩
    have hex : ∃ i, hasToolCalls (modelOut i) = false := ⟨i, hi⟩
    classical
    let i0 := Nat.find hex
    have hi0 : hasToolCalls (modelOut i0) = false := Nat.find_spec hex
    have hbefore : ∀ j, j < i0 → hasToolCalls (modelOut j) = true := by
      intro j hj
      have := Nat.find_min hex hj
      revert this
      cases hasToolCalls (modelOut j) <;> simp
    obtain ⟨hnode, hinvs⟩ :=
      turnIter_two_mul invoke modelOut s0 h0 hinv i0 hbefore
    refine ⟨2 * i0 + 1, ?_⟩
    rw [turnIter, Function.iterate_succ_apply']
    rw [show (turnStep invoke modelOut)^[2 * i0] s0 =
        turnIter invoke modelOut s0 (2 * i0) from rfl]
    rw [turnStep_model_node invoke modelOut _ hnode, hinvs, hi0]
    rfl

/-- Concrete instantiation of `turn_engine_unbounded_loop`: with a model that
answers call-free at once, the turn reaches the end state. -/
theorem turn_engine_unbounded_loop_witness :
    ∃ n, (turnIter (fun _ => []) (fun _ => Msg.ai "Paris is the capital of France." [])
        ⟨.model, [Msg.human "capital of France?"], 0⟩ n).node = .done :=
  (turn_engine_unbounded_loop (fun _ => [])
      (fun _ => Msg.ai "Paris is the capital of France." [])
      ⟨.model, [Msg.human "capital of France?"], 0⟩ rfl rfl).2.2.mpr
    ⟨0, by decide⟩

/-- Modelled from the spec: the Conversation Store (the `MemorySaver`
checkpointer looked up by thread id, external to the repository's own code).
It is a mapping from conversation identifier to saved message history; a
thread id with no saved entry resolves to the fresh empty history. -/
def resolveHistory (store : List (String × List Msg)) (checkpoint_id : String) :
    List Msg :=
  (store.lookup checkpoint_id).getD []

/-- Claim C9: a request supplying a conversation id unknown to the store
proceeds silently against a fresh empty history under that id: the handler's
output is exactly the ordinary event-loop output (no rejection branch), it
contains no `checkpoint` frame, and on a successful turn no `error` frame —
nothing diagnoses the unknown identifier. -/
theorem unknown_conversation_silent_fresh_start
    (store : List (String × List Msg)) (message checkpoint_id : String)
    (new_checkpoint_id : String) (events : List Event) (exc : Option String)
    (hunknown : store.lookup checkpoint_id = none)
    (hclean : cleanTrace events = true) (hexc : exc = none) :
    resolveHistory store checkpoint_id = []
    ∧ generate_chat_responses message (some checkpoint_id) new_checkpoint_id events exc =
        processEvents events exc
    ∧ checkpointCount
        (generate_chat_responses message (some checkpoint_id) new_checkpoint_id events exc) = 0
    ∧ ∀ m, Frame.error m ∉
        generate_chat_responses message (some checkpoint_id) new_checkpoint_id events exc := by
  refine ⟨by simp [resolveHistory, hunknown], rfl, ?_, ?_⟩
  · simpa [generate_chat_responses] using checkpointCount_processEvents events exc
  · intro m hm
    obtain ⟨fs, t, heq, hfs, _, hiff⟩ := processEvents_terminal_structure events exc
    have ht : t = .endFrame := hiff.mpr ⟨hexc, hclean⟩
    have : generate_chat_responses message (some checkpoint_id) new_checkpoint_id events exc =
        fs ++ [t] := heq
    rw [this, List.mem_append] at hm
    rcases hm with hm | hm
    · have := hfs _ hm
      simp [isTerminal] at this
    · rw [List.mem_singleton, ht] at hm
      cases hm

/-- Concrete instantiation of `unknown_conversation_silent_fresh_start` with
a one-entry store and an id absent from it. -/
theorem unknown_conversation_silent_fresh_start_witness :
    resolveHistory [("known", [Msg.human "old"])] "ghost" = []
    ∧ generate_chat_responses "q" (some "ghost") "fresh"
        [.onChatModelStream (.aiMessageChunk "hello")] none =
      processEvents [.onChatModelStream (.aiMessageChunk "hello")] none
    ∧ checkpointCount
        (generate_chat_responses "q" (some "ghost") "fresh"
          [.onChatModelStream (.aiMessageChunk "hello")] none) = 0
    ∧ ∀ m, Frame.error m ∉
        generate_chat_responses "q" (some "ghost") "fresh"
          [.onChatModelStream (.aiMessageChunk "hello")] none :=
  unknown_conversation_silent_fresh_start [("known", [Msg.human "old"])] "q" "ghost"
    "fresh" [.onChatModelStream (.aiMessageChunk "hello")] none (by decide) (by decide) rfl

/-- One value of the frontend's session dict: `{"name": ..., "messages":
[{"role":..., "content":...}, ...], "checkpoint_id": ...}`. -/
structure SessionData where
  name : String
  messages : List (String × String)
  checkpoint_id : Option String
deriving DecidableEq, Repr

/-- The sort key of `sorted(sessions.items(), key=lambda x: float(x[0]),
reverse=True)`: an entry sorts before another when its numeric key is at
least as large (descending by timestamp).  Session keys are `str(time.time())`
timestamps; we model them directly by their numeric value. -/
def newerFirst (a b : ℚ × SessionData) : Prop := b.1 ≤ a.1

instance : DecidableRel newerFirst := fun a b =>
  inferInstanceAs (Decidable (b.1 ≤ a.1))

instance : IsTotal (ℚ × SessionData) newerFirst :=
  ⟨fun a b => le_total b.1 a.1⟩

instance : IsTrans (ℚ × SessionData) newerFirst :=
  ⟨fun _ _ _ hab hbc => le_trans hbc hab⟩

/-- `save_chat_sessions(sessions, max_sessions=20)`: when the mapping exceeds
`max_sessions` entries it is replaced by the `max_sessions` entries with the
largest numeric keys (sorting descending and taking the head) before being
persisted; otherwise it is persisted unchanged.  The returned list is what is
written to `db["sessions"]`. -/
def save_chat_sessions (sessions : List (ℚ × SessionData)) (max_sessions : Nat) :
    List (ℚ × SessionData) :=
  if sessions.length > max_sessions then
    (List.insertionSort newerFirst sessions).take max_sessions
  else sessions

/-- Claim C10: with distinct (timestamp) keys, a mapping with at most 20
entries is persisted in full; a larger mapping is persisted as exactly 20
entries, each an unchanged entry of the input, with distinct keys, and every
dropped entry's key is strictly smaller than every kept entry's key (the 20
numerically largest keys survive). -/
theorem save_chat_sessions_keeps_newest (sessions : List (ℚ × SessionData))
    (hnd : (sessions.map Prod.fst).Nodup) :
    (sessions.length ≤ 20 → save_chat_sessions sessions 20 = sessions)
    ∧ (20 < sessions.length →
        (save_chat_sessions sessions 20).length = 20
        ∧ (∀ p ∈ save_chat_sessions sessions 20, p ∈ sessions)
        ∧ ((save_chat_sessions sessions 20).map Prod.fst).Nodup
        ∧ ∀ q ∈ sessions, q ∉ save_chat_sessions sessions 20 →
            ∀ p ∈ save_chat_sessions sessions 20, q.1 < p.1) := by
  constructor
  · intro h
    rw [save_chat_sessions, if_neg (by omega)]
  · intro h
    have hsave : save_chat_sessions sessions 20 =
        (List.insertionSort newerFirst sessions).take 20 := by
      rw [save_chat_sessions, if_pos (by omega)]
    have hperm : List.Perm (List.insertionSort newerFirst sessions) sessions :=
      List.perm_insertionSort newerFirst sessions
    have hsorted : List.Sorted newerFirst (List.insertionSort newerFirst sessions) :=
      List.sorted_insertionSort newerFirst sessions
    have hndL : ((List.insertionSort newerFirst sessions).map Prod.fst).Nodup :=
      ((hperm.map Prod.fst).nodup_iff).mpr hnd
    have hlenL : (List.insertionSort newerFirst sessions).length = sessions.length :=
      hperm.length_eq
    refine ⟨?_, ?_, ?_, ?_⟩
    · rw [hsave, List.length_take, hlenL]
      omega
    · intro p hp
      rw [hsave] at hp
      exact hperm.subset (List.mem_of_mem_take hp)
    · rw [hsave]
      exact List.Nodup.sublist
        ((List.take_sublist 20 _).map Prod.fst) hndL
    · intro q hq hqout p hp
      rw [hsave] at hqout hp
      have hqL : q ∈ List.insertionSort newerFirst sessions := hperm.symm.subset hq
      have hpL : p ∈ List.insertionSort newerFirst sessions :=
        List.mem_of_mem_take hp
      have hqdrop : q ∈ (List.insertionSort newerFirst sessions).drop 20 := by
        have := List.take_append_drop 20 (List.insertionSort newerFirst sessions)
        rw [← this, List.mem_append] at hqL
        rcases hqL with hqL | hqL
        · exact absurd hqL hqout
        · exact hqL
      have hle : newerFirst p q := by
        have hpw := hsorted
        rw [List.Sorted, ← List.take_append_drop 20
          (List.insertionSort newerFirst sessions), List.pairwise_append] at hpw
        exact hpw.2.2 p hp q hqdrop
      refine lt_of_le_of_ne hle ?_
      intro heq
      have : q = p := List.inj_on_of_nodup_map hndL hqL hpL heq
      rw [this] at hqout
      exact hqout hp

/-- The input for the concrete check of `save_chat_sessions_keeps_newest`:
21 sessions keyed 0, 1, ..., 20. -/
def demoSessions : List (ℚ × SessionData) :=
  (List.range 21).map fun i => ((i : ℚ), ⟨"Chat " ++ toString i, [], none⟩)

/-- Concrete instantiation of `save_chat_sessions_keeps_newest` on 21
sessions: exactly 20 survive, all unchanged entries of the input. -/
theorem save_chat_sessions_keeps_newest_witness :
    (save_chat_sessions demoSessions 20).length = 20
    ∧ ∀ p ∈ save_chat_sessions demoSessions 20, p ∈ demoSessions :=
  ⟨((save_chat_sessions_keeps_newest demoSessions (by decide)).2 (by decide)).1,
   ((save_chat_sessions_keeps_newest demoSessions (by decide)).2 (by decide)).2.1⟩

end LiveWeb
